import Mathlib

/-!
Verification development for the ExecStateFuzzer repository.

We shallowly embed the parts of the code that the checked properties
concern: the latin-1 byte/string round trip and the mutation engine
(src/ExecStateFuzzer/mutation_engine.py), the state projection functions
(src/ExecStateFuzzer/subprocess_execution.py), and the corpus stat
tracker (src/ExecStateFuzzer/corpus_stat_tracker.py).

Conventions of the embedding:
* Python byte strings are lists of bytes, a byte being Fin 256.
* Python dicts are association lists preserving insertion order; an
  update overwrites in place when the key is present and appends
  otherwise, as CPython dicts do.
* Python sets are duplicate-free lists; set.pop, which removes an
  arbitrary element, is modelled as removing the last element (the
  repository's spec leaves the eviction policy unspecified).
* Randomness (operator choice, operator-internal randomness) is made
  explicit: the mutation engine takes the chosen operator name and the
  operator's per-retry outputs as parameters.
* Wall-clock fields (execution times, plateau timestamps) and I/O
  (printing, subprocess invocation) are outside the embedding; none of
  the checked properties mention them.
-/

/-- A byte, as in a Python `bytes` object: an integer in 0..255. -/
abbrev Byte := Fin 256

/-- A Python byte string. -/
abbrev ByteStr := List Byte

/-- A Python `str` is a sequence of Unicode code points; latin-1 text
only ever uses code points below 256, but a general operator may return
any code points, so strings are lists of naturals. -/
abbrev PyStr := List Nat

/-- Python bytes.decode("latin-1"): every byte b maps to code point b; this
never fails. -/
def latin1Decode (b : ByteStr) : PyStr :=
  b.map (fun c => c.val)

/-- Python str.encode("latin-1"): a code point below 256 maps to the byte of
the same value; a code point of 256 or more raises UnicodeEncodeError,
modelled as `none`. -/
def latin1Encode : PyStr → Option ByteStr
  | [] => some []
  | c :: rest =>
    if h : c < 256 then
      match latin1Encode rest with
      | some bs => some (⟨c, h⟩ :: bs)
      | none => none
    else none

theorem latin1Encode_decode (b : ByteStr) :
    latin1Encode (latin1Decode b) = some b := by
  induction b with
  | nil => rfl
  | cons c rest ih =>
    simp only [latin1Decode, List.map_cons, latin1Encode] at ih ⊢
    have hc : c.val < 256 := c.isLt
    simp [hc, ih]

/-! ## Corpus stat tracker

Embedding of `CorpusStatTracker` from corpus_stat_tracker.py.  Bitmap
cells are naturals (Python bytearray cells are 0..255; only truthiness
and the writes of the literal 1 matter).  The wall-clock fields
(last_coverage_time, cumulative_execution_time, start_time) and the
lock/snapshot-thread machinery are outside the embedding. -/

/-- The per-run sample fields of `ExecutionResult` that `add_sample`
reads.  `execution_time` is a wall-clock float and is omitted. -/
structure ExecSample where
  cov_bitmap : Option (List Nat)
  branch_taken_bitmap : Option (List Nat)
  branch_fallthrough_bitmap : Option (List Nat)
  instr_address_set : List Int
  total_instructions : Int
  pathlen_blocks : Int
  call_depth : Int

/-- The tracker fields that `add_sample` and `get_result` touch, minus
the wall-clock fields. -/
structure TrackerState where
  cov_bitmap : List Nat
  branch_taken : List Nat
  branch_fallthrough : List Nat
  instruction_addresses : Finset Int
  total_instructions : Int
  pathlen_blocks_sum : Int
  pathlen_blocks_max : Int
  calldepth_inside_sum : Int
  calldepth_inside_max : Int
  num_samples : Nat

/-- The edge-merge loop of `add_sample`: for i in range(len(gb)), if
rb[i] is truthy and gb[i] is falsy, set gb[i] = 1.  Faithful to the
source when rb has at least the length of gb (otherwise Python raises
IndexError; theorems carry that length hypothesis). -/
def mergeCov : List Nat → List Nat → List Nat
  | [], _ => []
  | g :: gs, rb =>
      (if rb.headD 0 ≠ 0 ∧ g = 0 then 1 else g) :: mergeCov gs rb.tail

/-- The branch-merge loop of `add_sample` for one of the two branch
bitmaps: for i in range(MAP_SIZE), if sample bit truthy, set global bit
to 1. -/
def mergeBranch : List Nat → List Nat → List Nat
  | [], _ => []
  | g :: gs, rb =>
      (if rb.headD 0 ≠ 0 then 1 else g) :: mergeBranch gs rb.tail

/-- CorpusStatTracker.add_sample, minus the wall-clock update
(`reset_time_since_last_coverage`). -/
def addSample (st : TrackerState) (s : ExecSample) : TrackerState :=
  let cov := match s.cov_bitmap with
    | none => st.cov_bitmap
    | some rb => mergeCov st.cov_bitmap rb
  let (bt, bf) := match s.branch_taken_bitmap, s.branch_fallthrough_bitmap with
    | some rbt, some rbf => (mergeBranch st.branch_taken rbt, mergeBranch st.branch_fallthrough rbf)
    | _, _ => (st.branch_taken, st.branch_fallthrough)
  let instrs := if s.instr_address_set ≠ [] then
      st.instruction_addresses ∪ s.instr_address_set.toFinset
    else st.instruction_addresses
  { cov_bitmap := cov
    branch_taken := bt
    branch_fallthrough := bf
    instruction_addresses := instrs
    total_instructions := st.total_instructions + s.total_instructions
    pathlen_blocks_sum := st.pathlen_blocks_sum + s.pathlen_blocks
    pathlen_blocks_max := max st.pathlen_blocks_max s.pathlen_blocks
    calldepth_inside_sum := st.calldepth_inside_sum + s.call_depth
    calldepth_inside_max := max st.calldepth_inside_max s.call_depth
    num_samples := st.num_samples + 1 }

/-- The `total_edges` field of `get_result`: the number of truthy cells
in the global edge bitmap. -/
def totalEdges (st : TrackerState) : Nat :=
  st.cov_bitmap.countP (fun b => b ≠ 0)

/-- Folding a whole sequence of samples into the tracker. -/
def addSamples (st : TrackerState) (ss : List ExecSample) : TrackerState :=
  ss.foldl addSample st

/-- A concrete tracker state used by the C6 witness. -/
def trackerW : TrackerState :=
  ⟨[1, 0, 0, 0], [0, 0, 0, 0], [0, 0, 0, 0], ∅, 0, 0, 0, 0, 0, 0⟩

/-- A concrete sample that sets edge bit 1, used by the C6 witness. -/
def sampleW1 : ExecSample :=
  ⟨some [0, 1, 0, 0], none, none, [], 0, 0, 0⟩

/-- A concrete sample that sets edge bit 2, used by the C6 witness. -/
def sampleW2 : ExecSample :=
  ⟨some [1, 0, 1, 0], none, none, [], 0, 0, 0⟩

/-! ## Observation values, environments and the predicate evaluator

Observation samples come from stdout parsing in execute_binary, which
produces ints (also bool-as-int) and strings.  Float observations are
outside the embedding; none of the checked properties involve them. -/

/-- A scalar observation value: integer (also bool-as-integer) or
string. -/
inductive PScalar
  | int (i : Int)
  | str (s : String)
deriving DecidableEq

/-- A value stored in a state dict: a scalar, or the ordered tuple a
`set` spec item produces. -/
inductive PValue
  | int (i : Int)
  | str (s : String)
  | tup (l : List PScalar)
deriving DecidableEq

/-- The environment of a predicate evaluation: latest (or per-step)
values by name, in insertion order. -/
abbrev PEnv := List (String × PScalar)

def envLookup (env : PEnv) (x : String) : Option PScalar :=
  (env.find? (fun p => p.1 = x)).map Prod.snd

def envContains (env : PEnv) (x : String) : Bool :=
  env.any (fun p => p.1 = x)

/-- CPython dict update: overwrite in place when the key is present,
append otherwise. -/
def envInsert (env : PEnv) (k : String) (v : PScalar) : PEnv :=
  if env.any (fun p => p.1 = k) then
    env.map (fun p => if p.1 = k then (k, v) else p)
  else env ++ [(k, v)]

/-- Modelled from the spec: the expression language of the predicate
evaluator (utils.eval_predicate_expression; utils.py is not among the
given sources).  Section 4.A: literals, identifiers, arithmetic,
comparison, boolean connectives, membership.  Expressions are
represented as their parse trees; the string parser is not modelled. -/
inductive ArithOp
  | add | sub | mul | div | mod
deriving DecidableEq

/-- Modelled from the spec: comparison operators of the expression
language. -/
inductive CmpOp
  | ceq | cne | clt | cle | cgt | cge
deriving DecidableEq

/-- Modelled from the spec: expression trees of the predicate
evaluator. -/
inductive PExpr
  | lit (v : PScalar)
  | ident (x : String)
  | arith (op : ArithOp) (a b : PExpr)
  | cmp (op : CmpOp) (a b : PExpr)
  | band (a b : PExpr)
  | bor (a b : PExpr)
  | bnot (a : PExpr)
  | mem (a b : PExpr)
deriving DecidableEq

/-- Python truthiness of a scalar: 0 and the empty string are falsy. -/
def truthy : PScalar → Bool
  | .int i => i ≠ 0
  | .str s => s ≠ ""

/-- A Python comparison result: bool-as-integer. -/
def boolScalar (b : Bool) : PScalar := .int (if b then 1 else 0)

def cmpInt : CmpOp → Int → Int → Bool
  | .ceq, i, j => i = j
  | .cne, i, j => i ≠ j
  | .clt, i, j => i < j
  | .cle, i, j => i ≤ j
  | .cgt, i, j => j < i
  | .cge, i, j => j ≤ i

def cmpStr : CmpOp → String → String → Bool
  | .ceq, a, b => a = b
  | .cne, a, b => a ≠ b
  | .clt, a, b => a < b
  | .cle, a, b => a < b ∨ a = b
  | .cgt, a, b => b < a
  | .cge, a, b => b < a ∨ a = b

/-- Modelled from the spec: evaluation of an expression over an
environment (section 4.A).  Unknown identifiers default to zero;
division by zero and type mismatches propagate as an evaluation error;
Python // and % are floor division and modulus. -/
def evalPExpr (env : PEnv) : PExpr → Except Unit PScalar
  | .lit v => .ok v
  | .ident x => .ok ((envLookup env x).getD (.int 0))
  | .arith op a b =>
      match evalPExpr env a, evalPExpr env b with
      | .ok (.int i), .ok (.int j) =>
          match op with
          | .add => .ok (.int (i + j))
          | .sub => .ok (.int (i - j))
          | .mul => .ok (.int (i * j))
          | .div => if j = 0 then .error () else .ok (.int (Int.fdiv i j))
          | .mod => if j = 0 then .error () else .ok (.int (Int.fmod i j))
      | .ok (.str sa), .ok (.str sb) =>
          match op with
          | .add => .ok (.str (sa ++ sb))
          | _ => .error ()
      | .ok _, .ok _ => .error ()
      | .error e, _ => .error e
      | _, .error e => .error e
  | .cmp op a b =>
      match evalPExpr env a, evalPExpr env b with
      | .ok va, .ok vb =>
          match op with
          | .ceq => .ok (boolScalar (va = vb))
          | .cne => .ok (boolScalar (va ≠ vb))
          | _ =>
              match va, vb with
              | .int i, .int j => .ok (boolScalar (cmpInt op i j))
              | .str x, .str y => .ok (boolScalar (cmpStr op x y))
              | _, _ => .error ()
      | .error e, _ => .error e
      | _, .error e => .error e
  | .band a b =>
      match evalPExpr env a with
      | .ok va => if truthy va then evalPExpr env b else .ok va
      | .error e => .error e
  | .bor a b =>
      match evalPExpr env a with
      | .ok va => if truthy va then .ok va else evalPExpr env b
      | .error e => .error e
  | .bnot a =>
      match evalPExpr env a with
      | .ok va => .ok (boolScalar (¬ truthy va))
      | .error e => .error e
  | .mem a b =>
      match evalPExpr env a, evalPExpr env b with
      | .ok (.str x), .ok (.str y) => .ok (boolScalar (List.IsInfix x.toList y.toList))
      | .ok _, .ok _ => .error ()
      | .error e, _ => .error e
      | _, .error e => .error e

/-- Modelled from the spec: utils.eval_predicate_expression as its
callers use it — evaluate and take truthiness, with evaluation errors
treated as false (sections 4.A and 7). -/
def eval_predicate_expression (e : PExpr) (env : PEnv) : Bool :=
  match evalPExpr env e with
  | .ok v => truthy v
  | .error _ => false

/-- Modelled from the spec: utils.coerce_value_to_int — integers pass
through, strings parse as integers, and per section 4.B a value that
fails to coerce is skipped (contributes nothing to the sum). -/
def coerce_value_to_int : PScalar → Int
  | .int i => i
  | .str s => (s.toInt?).getD 0

/-! ## State spec items and state projection

Embedding of _compute_state_dict and _dict_to_state_tuple from
subprocess_execution.py.  A predicate or counter item carries the raw
expression string (the display key the source uses) together with its
parse tree. -/

/-- A state spec item, as in section 3 of the spec and the `item_type`
dispatch of _compute_state_dict. -/
inductive SpecItem
  | value (name : String)
  | sum (name : String)
  | predicate (expr : String) (ast : PExpr)
  | counter (expr : String) (ast : PExpr)
  | set (name : String)
deriving DecidableEq

/-- Observation samples: name to ordered sample list, in insertion
order. -/
abbrev Samples := List (String × List PScalar)

def samplesGet (samples : Samples) (n : String) : List PScalar :=
  ((samples.find? (fun p => p.1 = n)).map Prod.snd).getD []

def samplesContains (samples : Samples) (n : String) : Bool :=
  samples.any (fun p => p.1 = n)

/-- The state dict: display key to computed value, insertion order. -/
abbrev StateDict := List (String × PValue)

def dictLookup (d : StateDict) (k : String) : Option PValue :=
  (d.find? (fun p => p.1 = k)).map Prod.snd

def dictContains (d : StateDict) (k : String) : Bool :=
  d.any (fun p => p.1 = k)

/-- CPython dict update on the state dict. -/
def dictInsert (d : StateDict) (k : String) (v : PValue) : StateDict :=
  if d.any (fun p => p.1 = k) then
    d.map (fun p => if p.1 = k then (k, v) else p)
  else d ++ [(k, v)]

/-- Python max((len(values) for values in samples.values()), default=0) in
the counter branch. -/
def maxSampleLen (samples : Samples) : Nat :=
  samples.foldl (fun m p => max m p.2.length) 0

/-- The per-step environment of the counter branch: for each name in
dict order, include `values[i]` when i is in range. -/
def stepEnv (samples : Samples) (i : Nat) : PEnv :=
  samples.foldl
    (fun env p => if i < p.2.length then envInsert env p.1 (p.2.getD i (.int 0)) else env)
    []

/-- The counter branch of _compute_state_dict: walk i over the index
range and count the steps at which the expression is truthy. -/
def counterCount (samples : Samples) (ast : PExpr) : Nat :=
  (List.range (maxSampleLen samples)).foldl
    (fun c i => if eval_predicate_expression ast (stepEnv samples i) then c + 1 else c)
    0

/-- The canonicalization of one observed value in the set branch:
bytes and ints as-is, everything else stringified.  On the scalars the
stdout parser produces, this is the identity. -/
def canonSetValue (v : PScalar) : PScalar := v

def scalarLE (a b : PScalar) : Bool :=
  match a, b with
  | .int i, .int j => i ≤ j
  | .str x, .str y => x < y ∨ x = y
  | .int _, .str _ => true
  | .str _, .int _ => false

def insertSorted (x : PScalar) : List PScalar → List PScalar
  | [] => [x]
  | y :: ys => if scalarLE x y then x :: y :: ys else y :: insertSorted x ys

/-- Python tuple(sorted(unique_values)) of the set branch: deduplicate and
sort.  Python raises TypeError on a mixed int/str comparison; the
embedding totalizes the order (ints before strings), which coincides
with Python on the single-type sets the parser produces for one
name. -/
def sortedUniqueValues (values : List PScalar) : List PScalar :=
  ((values.map canonSetValue).dedup).foldr insertSorted []

/-- One iteration of the `for item in spec` loop of
_compute_state_dict, updating the result dict.  The
show_execution_values printing is I/O and is omitted. -/
def updItem (samples : Samples) (latest : PEnv) (d : StateDict) : SpecItem → StateDict
  | .value n =>
      match envLookup latest n with
      | some v =>
          dictInsert d n (match v with | .int i => .int i | .str s => .str s)
      | none => d
  | .sum n =>
      dictInsert d n (.int ((samplesGet samples n).foldl (fun t v => t + coerce_value_to_int v) 0))
  | .predicate s ast =>
      dictInsert d s (.int (if eval_predicate_expression ast latest then 1 else 0))
  | .counter s ast =>
      dictInsert d s (.int (counterCount samples ast))
  | .set n =>
      dictInsert d n (.tup (sortedUniqueValues (samplesGet samples n)))

/-- The function _compute_state_dict from subprocess_execution.py. -/
def computeStateDict (spec : List SpecItem) (samples : Samples) (latest : PEnv) : StateDict :=
  spec.foldl (updItem samples latest) []

/-- The display key of a spec item: name for value/sum/set, expression
string for predicate/counter. -/
def itemKey : SpecItem → String
  | .value n => n
  | .sum n => n
  | .predicate s _ => s
  | .counter s _ => s
  | .set n => n

/-- The function _dict_to_state_tuple from subprocess_execution.py: flatten the
state dict in spec order, labelling each present key. -/
def dictToStateTuple (spec : List SpecItem) (d : StateDict) : List PValue :=
  spec.foldl
    (fun acc item =>
      match item with
      | .value n =>
          if dictContains d n then
            acc ++ [.str (n ++ " (value)"), (dictLookup d n).getD (.int 0)]
          else acc
      | .sum n =>
          if dictContains d n then
            acc ++ [.str (n ++ " (sum)"), (dictLookup d n).getD (.int 0)]
          else acc
      | .predicate s _ =>
          if dictContains d s then
            acc ++ [.str s, (dictLookup d s).getD (.int 0)]
          else acc
      | .counter s _ =>
          if dictContains d s then
            acc ++ [.str (s ++ " (count)"), (dictLookup d s).getD (.int 0)]
          else acc
      | .set n =>
          if dictContains d n then
            acc ++ [.str (n ++ " (set)"), (dictLookup d n).getD (.int 0)]
          else acc)
    []

/-- The label _dict_to_state_tuple actually writes for each item kind:
value/sum/set append " (value)"/" (sum)"/" (set)", counter appends
" (count)", and predicate uses the bare expression string. -/
def itemLabel : SpecItem → String
  | .value n => n ++ " (value)"
  | .sum n => n ++ " (sum)"
  | .predicate s _ => s
  | .counter s _ => s ++ " (count)"
  | .set n => n ++ " (set)"

/-- The declarative form of the state tuple: per item in order, the
labelled pair when the display key is present, nothing otherwise. -/
def stateTupleSpec (spec : List SpecItem) (d : StateDict) : List PValue :=
  (spec.map (fun item =>
    if dictContains d (itemKey item) then
      [PValue.str (itemLabel item), (dictLookup d (itemKey item)).getD (.int 0)]
    else [])).flatten

/-! ## Mutation engine

Embedding of MutationEngine from mutation_engine.py.  Dynamic loading
is file I/O and is not modelled; the loaded operator names and the
validated rules are the engine's inputs.  Randomness (the weighted
operator choice and any operator-internal randomness) is made explicit:
mutate takes the chosen operator name per iteration and the operator's
output per (iteration, retry) attempt as function parameters. -/

/-- A validated mutation rule: optional name, optional condition (with
its parse tree; absent means unconditional), and a weighted operator
list. -/
structure MutRule where
  name : Option String
  condition : Option PExpr
  operators : List (String × ℚ)
deriving DecidableEq

/-- MutationEngine.select_rule: first rule in declaration order whose
condition is null or evaluates truthy over the mutation context. -/
def selectRule : List MutRule → PEnv → Option MutRule
  | [], _ => none
  | r :: rest, ctx =>
      match r.condition with
      | none => some r
      | some c =>
          if eval_predicate_expression c ctx then some r else selectRule rest ctx

/-- Whether a rule matches a context: condition absent, or condition
truthy. -/
def ruleMatches (ctx : PEnv) (r : MutRule) : Bool :=
  match r.condition with
  | none => true
  | some c => eval_predicate_expression c ctx

/-- An MD5 digest: exactly 16 bytes. -/
abbrev Md5Digest := { l : ByteStr // l.length = 16 }

/-- The mutable engine state: the mutation history (a set of digests,
modelled as a duplicate-free list) and the two bounds set in
MutationEngine.__init__. -/
structure EngineState where
  mutation_history : List Md5Digest
  max_mutation_history_size : Nat
  max_retries : Nat
deriving DecidableEq

/-- The engine state right after construction: empty history,
max_mutation_history_size = 1000, max_retries = 5. -/
def initEngineState : EngineState :=
  ⟨[], 1000, 5⟩

/-- The `for _ in range(self.max_retries)` loop of mutate, for one
requested mutation: `outs r` is the string the operator returns at
retry r, encoded latin-1; a novel digest is recorded and its bytes
emitted; encoding failure raises.  Returns the new history and the
emitted bytes, or none when every retry collided (the loop then simply
ends with nothing emitted). -/
def retryLoop (digest : ByteStr → Md5Digest) (outs : Nat → PyStr) :
    Nat → Nat → List Md5Digest → Except String (List Md5Digest × Option ByteStr)
  | 0, _, hist => .ok (hist, none)
  | fuel + 1, r, hist =>
      match latin1Encode (outs r) with
      | none => .error "operator failed"
      | some mutated =>
          let h := digest mutated
          if h ∈ hist then retryLoop digest outs fuel (r + 1) hist
          else .ok (h :: hist, some mutated)

/-- The `for _ in range(num_mutations)` loop of mutate: k is the
iteration index, fuel the remaining iterations.  After each iteration,
when the history has reached max_mutation_history_size an arbitrary
entry is evicted (set.pop; modelled as dropping the last element).  On
an error the history mutations made so far are kept, as in the source
(the exception propagates past the return). -/
def mutateLoop (rules : List MutRule) (ctx : PEnv) (digest : ByteStr → Md5Digest)
    (opChoice : Nat → String) (opFn : PyStr → PEnv → Nat → Nat → PyStr)
    (data : ByteStr) :
    Nat → Nat → EngineState → List (ByteStr × String) →
    Except String (List (ByteStr × String)) × EngineState
  | 0, _, st, muts => (.ok muts, st)
  | fuel + 1, k, st, muts =>
      match selectRule rules ctx with
      | none => (.error "no matching rule for mutation context", st)
      | some _ =>
          let opName := opChoice k
          match retryLoop digest (opFn (latin1Decode data) ctx k) st.max_retries 0
              st.mutation_history with
          | .error e => (.error e, st)
          | .ok (hist, res) =>
              let muts2 := match res with
                | some m => muts ++ [(m, opName)]
                | none => muts
              let hist2 :=
                if st.max_mutation_history_size ≤ hist.length then hist.dropLast else hist
              mutateLoop rules ctx digest opChoice opFn data fuel (k + 1)
                { st with mutation_history := hist2 } muts2

/-- MutationEngine.mutate.  `operators` is the list of loaded operator
names; `opChoice k` is the operator name the weighted sampling picks at
iteration k; `opFn dataStr mutationContext k r` is the string the
chosen operator returns when called at iteration k, retry r.  The
result pairs the returned mutation list (or the raised error) with the
engine state after the call. -/
def mutate (operators : List String) (rules : List MutRule)
    (digest : ByteStr → Md5Digest) (opChoice : Nat → String)
    (opFn : PyStr → PEnv → Nat → Nat → PyStr)
    (st : EngineState) (data : ByteStr) (ctx : PEnv) (numMutations : Nat) :
    Except String (List (ByteStr × String)) × EngineState :=
  if operators = [] then (.error "no operators loaded", st)
  else if rules = [] then (.error "no rules defined in strategy", st)
  else mutateLoop rules ctx digest opChoice opFn data numMutations 0 st []

/-- One mutate call of a call sequence: its input bytes, mutation
context, requested count, and the explicit random choices. -/
structure MutateCall where
  data : ByteStr
  ctx : PEnv
  num : Nat
  opChoice : Nat → String
  opFn : PyStr → PEnv → Nat → Nat → PyStr

/-- Threading the engine state through a sequence of mutate calls. -/
def runMutateCalls (operators : List String) (rules : List MutRule)
    (digest : ByteStr → Md5Digest) : EngineState → List MutateCall → EngineState
  | st, [] => st
  | st, c :: rest =>
      runMutateCalls operators rules digest
        (mutate operators rules digest c.opChoice c.opFn st c.data c.ctx c.num).2 rest

/-- A toy 16-byte digest used by the concrete witnesses: sixteen copies
of the byte sum of the input. -/
def toyDigest (b : ByteStr) : Md5Digest :=
  ⟨List.replicate 16 ⟨b.foldl (fun a c => (a + c.val) % 256) 7 % 256,
      Nat.mod_lt _ (by norm_num)⟩,
    by simp⟩

/-! ## Strategy validation

Embedding of the rule-validation loop of MutationEngine._load_strategy.
The strategy file is parsed JSON; a rule is a JSON object, modelled as
an association list of string keys to JSON values. -/

/-- A JSON value, as json.load produces it.  Numbers are rationals
(covering Python int and float weights); a Python bool is a subclass of
int, which the weight check exploits. -/
inductive JVal
  | jnull
  | jbool (b : Bool)
  | jnum (q : ℚ)
  | jstr (s : String)
  | jarr (l : List JVal)
  | jobj (l : List (String × JVal))

/-- A parsed rule object. -/
abbrev JRule := List (String × JVal)

def jruleLookup (rule : JRule) (k : String) : Option JVal :=
  (rule.find? (fun p => p.1 = k)).map Prod.snd

/-- The per-entry checks of _load_strategy: the entry must be a
two-element list; the first element must be a loaded operator name (a
non-string first element is simply not a key of self.operators); the
second must be an int or float (Python bools included) greater than
zero. -/
def validateOpEntry (ops : List String) (entry : JVal) : Except String Unit :=
  match entry with
  | .jarr [a, w] =>
      match a with
      | .jstr s =>
          if s ∈ ops then
            match w with
            | .jnum q => if 0 < q then .ok () else .error "invalid weight"
            | .jbool b => if b then .ok () else .error "invalid weight"
            | _ => .error "invalid weight"
          else .error "references unknown operator"
      | _ => .error "references unknown operator"
  | _ => .error "operator entry must be name and weight"

/-- The `for op_entry in rule['operators']` loop: first failure wins;
an empty list passes vacuously. -/
def validateOpEntries (ops : List String) : List JVal → Except String Unit
  | [] => .ok ()
  | e :: rest =>
      match validateOpEntry ops e with
      | .ok _ => validateOpEntries ops rest
      | .error m => .error m

/-- The per-rule checks of _load_strategy: the operators field must be
present and be a list, and every entry must pass validateOpEntry. -/
def validateRule (ops : List String) (rule : JRule) : Except String Unit :=
  match jruleLookup rule "operators" with
  | none => .error "missing operators field"
  | some v =>
      match v with
      | .jarr entries => validateOpEntries ops entries
      | _ => .error "operators must be a list"

/-- The `for rule in self.rules` validation loop of _load_strategy. -/
def validateStrategy (ops : List String) : List JRule → Except String Unit
  | [] => .ok ()
  | r :: rest =>
      match validateRule ops r with
      | .ok _ => validateStrategy ops rest
      | .error m => .error m

/-- The declarative acceptance condition for one operator entry: a
two-element list of a loaded operator name and a positive number
(or Python True, an int of value 1). -/
def entryOk (ops : List String) : JVal → Bool
  | .jarr [.jstr s, .jnum q] => s ∈ ops ∧ 0 < q
  | .jarr [.jstr s, .jbool b] => s ∈ ops ∧ b = true
  | _ => false

/-- The declarative acceptance condition for one rule: an operators
field that is a list — possibly empty — of valid entries. -/
def ruleOk (ops : List String) (rule : JRule) : Bool :=
  match jruleLookup rule "operators" with
  | some (.jarr entries) => entries.all (entryOk ops)
  | _ => false

/-! ## Bool observation token coercion

Embedding of the bool branch of the stdout value coercion in
execute_binary (line `value = int(value_str) if value_str.isdigit()
else (1 if value_str.lower() in ('true', 'yes', '1') else 0)`).  A raw
token is a latin-1 string, i.e. a byte string, since stdout is decoded
latin-1.  str.isdigit within latin-1 accepts the ASCII digits and the
superscripts ¹ (185), ² (178), ³ (179); int() accepts only the ASCII
digits, so a digit-token containing a superscript raises ValueError,
which the surrounding try swallows (the value is dropped). -/

def isAsciiDigitCh (c : Byte) : Bool := 48 ≤ c.val ∧ c.val ≤ 57

def isPyDigitChL1 (c : Byte) : Bool :=
  (48 ≤ c.val ∧ c.val ≤ 57) ∨ c.val = 178 ∨ c.val = 179 ∨ c.val = 185

/-- Python str.isdigit on a latin-1 string: non-empty and all digit
characters. -/
def pyStrIsDigit (t : ByteStr) : Bool :=
  decide (t ≠ []) && t.all isPyDigitChL1

/-- Python int() on an isdigit-guarded latin-1 token: succeeds exactly
on non-empty all-ASCII-digit strings, giving the decimal value. -/
def pyIntParse (t : ByteStr) : Option Int :=
  if t ≠ [] ∧ ∀ c ∈ t, isAsciiDigitCh c then
    some ((t.foldl (fun a c => a * 10 + (c.val - 48)) 0 : Nat) : Int)
  else none

/-- Python str.lower on a latin-1 code point: ASCII A-Z and the latin-1
uppercase letters À-Þ (except ×) map down by 32. -/
def lowerL1 (c : Byte) : Byte :=
  if h1 : 65 ≤ c.val ∧ c.val ≤ 90 then ⟨c.val + 32, by omega⟩
  else if h2 : 192 ≤ c.val ∧ c.val ≤ 222 ∧ c.val ≠ 215 then ⟨c.val + 32, by omega⟩
  else c

/-- An ASCII string literal as a latin-1 byte string. -/
def toL1 (s : String) : ByteStr :=
  s.toList.map (fun ch => ⟨ch.toNat % 256, Nat.mod_lt _ (by norm_num)⟩)

/-- The bool branch of the stdout coercion: an isdigit token goes
through int() (none = ValueError, silently dropped by the surrounding
try); any other token maps to 1 when its lowercase form is true, yes
or 1, and to 0 otherwise. -/
def coerceBoolToken (t : ByteStr) : Option Int :=
  if pyStrIsDigit t then pyIntParse t
  else some (if t.map lowerL1 = toL1 "true" ∨ t.map lowerL1 = toL1 "yes" ∨
      t.map lowerL1 = toL1 "1" then 1 else 0)

/-- Appending a coerced bool token to a sample list: a coercion failure
drops the value, a success appends it in emission order. -/
def recordBoolToken (acc : List Int) (t : ByteStr) : List Int :=
  match coerceBoolToken t with
  | none => acc
  | some v => acc ++ [v]

/-- The declarative description of the bool coercion the code actually
performs: a non-empty all-ASCII-digit token is its decimal value (via
Nat.ofDigits on its digits); a digit token containing a superscript
digit is dropped; every other token is 1 when it lowercases to
true/yes/1 and 0 otherwise. -/
def coerceBoolSpec (t : ByteStr) : Option Int :=
  if t ≠ [] ∧ ∀ c ∈ t, isAsciiDigitCh c then
    some ((Nat.ofDigits 10 ((t.map (fun c => c.val - 48)).reverse) : Nat) : Int)
  else if t ≠ [] ∧ ∀ c ∈ t, isPyDigitChL1 c then none
  else some (if t.map lowerL1 = toL1 "true" ∨ t.map lowerL1 = toL1 "yes" ∨
      t.map lowerL1 = toL1 "1" then 1 else 0)

/-! ## Declarative counterparts and concrete inputs for witnesses -/

/-- The per-step environment, declaratively: exactly the names whose
sample list has more than i elements, in declaration order, each bound
to its i-th sample. -/
def stepEnvSpec (samples : Samples) (i : Nat) : PEnv :=
  samples.filterMap (fun p => (p.2[i]?).map (fun v => (p.1, v)))

/-- The counter value, declaratively: the number of step indices in
0..maxSampleLen-1 at which the expression evaluates true over the
per-step environment. -/
def counterSpecCount (samples : Samples) (ast : PExpr) : Nat :=
  ((List.range (maxSampleLen samples)).filter
    (fun i => eval_predicate_expression ast (stepEnvSpec samples i))).length

/-- The byte string b"x", used by concrete engine runs. -/
def dataW : ByteStr := [⟨120, by norm_num⟩]

/-- An unconditional rule over a single operator, used by concrete
engine runs. -/
def ruleW : MutRule := ⟨none, none, [("idOp", 1)]⟩

/-- An engine state whose history already contains the digest of
b"x", so an identity operator collides on every retry. -/
def stW : EngineState := ⟨[toyDigest dataW], 1000, 5⟩

/-- The spec item predicate "x > 3" with its parse tree. -/
def predItemW : SpecItem :=
  .predicate "x > 3" (.cmp .cgt (.ident "x") (.lit (.int 3)))

/-- The samples of the spec's counter scenario:
a = [1, 0, 1], b = [0, 0, 1]. -/
def samplesW : Samples :=
  [("a", [.int 1, .int 0, .int 1]), ("b", [.int 0, .int 0, .int 1])]

/-- The parse tree of "a and b". -/
def astW : PExpr := .band (.ident "a") (.ident "b")

/-- Two rules as in the spec's first-match scenario: the first guarded
by "n == 0", the second unconditional. -/
def ruleCondW : MutRule :=
  ⟨some "r1", some (.cmp .ceq (.ident "n") (.lit (.int 0))), [("A", 1)]⟩

def ruleUncondW : MutRule := ⟨none, none, [("B", 1)]⟩

theorem mergeCov_length (gb : List Nat) : ∀ rb, (mergeCov gb rb).length = gb.length := by
  induction gb with
  | nil => intro rb; rfl
  | cons g gs ih => intro rb; simp [mergeCov, ih]

theorem mergeCov_preserves_set (gb : List Nat) :
    ∀ rb i, gb.getD i 0 ≠ 0 → (mergeCov gb rb).getD i 0 ≠ 0 := by
  induction gb with
  | nil => intro rb i h; simp at h
  | cons g gs ih =>
    intro rb i h
    cases i with
    | zero =>
      simp only [List.getD_cons_zero] at h
      simp only [mergeCov, List.getD_cons_zero]
      split

      · norm_num
      · exact h
    | succ j =>
      simp only [List.getD_cons_succ] at h
      simpa only [mergeCov, List.getD_cons_succ] using ih rb.tail j h

theorem mergeCov_countP_le (gb : List Nat) :
    ∀ rb, gb.countP (fun b => b ≠ 0) ≤ (mergeCov gb rb).countP (fun b => b ≠ 0) := by
  induction gb with
  | nil => intro rb; simp [mergeCov]
  | cons g gs ih =>
    intro rb
    simp only [mergeCov, List.countP_cons]
    refine Nat.add_le_add (ih rb.tail) ?_
    by_cases hg : g = 0
    · subst hg
      by_cases hr : rb.headD 0 ≠ 0 <;> simp [hr]
    · simp [hg]

theorem addSample_cov_preserves_set (st : TrackerState) (s : ExecSample)
    (i : Nat) (h : st.cov_bitmap.getD i 0 ≠ 0) :
    (addSample st s).cov_bitmap.getD i 0 ≠ 0 := by
  unfold addSample
  cases hcb : s.cov_bitmap with
  | none => exact h
  | some rb =>
    exact mergeCov_preserves_set st.cov_bitmap rb i h

theorem addSample_totalEdges_le (st : TrackerState) (s : ExecSample) :
    totalEdges st ≤ totalEdges (addSample st s) := by
  unfold totalEdges addSample
  cases hcb : s.cov_bitmap with
  | none => simp
  | some rb => simpa using mergeCov_countP_le st.cov_bitmap rb

theorem addSamples_cov_preserves_set (ss : List ExecSample) :
    ∀ st i, st.cov_bitmap.getD i 0 ≠ 0 →
      (addSamples st ss).cov_bitmap.getD i 0 ≠ 0 := by
  induction ss with
  | nil => intro st i h; simpa [addSamples] using h
  | cons s rest ih =>
    intro st i h
    simpa [addSamples] using ih (addSample st s) i (addSample_cov_preserves_set st s i h)

theorem addSamples_totalEdges_le (ss : List ExecSample) :
    ∀ st, totalEdges st ≤ totalEdges (addSamples st ss) := by
  induction ss with
  | nil => intro st; simp [addSamples]
  | cons s rest ih =>
    intro st
    calc totalEdges st ≤ totalEdges (addSample st s) := addSample_totalEdges_le st s
    _ ≤ totalEdges (addSamples (addSample st s) rest) := ih (addSample st s)
    _ = totalEdges (addSamples st (s :: rest)) := by simp [addSamples]

/-- C6: For every sequence of add_sample calls, every bit position of
the global edge bitmap that is ever set (i.e. is set after some prefix
of the sequence) remains set after the later calls, and the
total_edges value reported by get_result is non-decreasing over the
sequence. -/
theorem bitmap_monotone_totalEdges_nondecreasing
    (st : TrackerState) (ss1 ss2 : List ExecSample) (i : Nat)
    (h : (addSamples st ss1).cov_bitmap.getD i 0 ≠ 0) :
    (addSamples st (ss1 ++ ss2)).cov_bitmap.getD i 0 ≠ 0 ∧
    totalEdges (addSamples st ss1) ≤ totalEdges (addSamples st (ss1 ++ ss2)) := by
  have hsplit : addSamples st (ss1 ++ ss2) = addSamples (addSamples st ss1) ss2 := by
    simp [addSamples]
  rw [hsplit]
  exact ⟨addSamples_cov_preserves_set ss2 (addSamples st ss1) i h,
    addSamples_totalEdges_le ss2 (addSamples st ss1)⟩

/-- Witness for C6: a concrete tracker whose bit 1 gets set by a first
sample and survives a second sample, with non-decreasing total_edges. -/
theorem bitmap_monotone_totalEdges_nondecreasing_witness :
    ((addSamples trackerW ([sampleW1] ++ [sampleW2])).cov_bitmap.getD 1 0 ≠ 0 ∧
     totalEdges (addSamples trackerW [sampleW1]) ≤
       totalEdges (addSamples trackerW ([sampleW1] ++ [sampleW2]))) :=
  bitmap_monotone_totalEdges_nondecreasing trackerW [sampleW1] [sampleW2] 1 (by decide)

/-! ## Theorems on the latin-1 round trip and the mutation engine -/

/-- C10: latin-1 decode then encode is the identity on every byte
string, so mutate — which hands each operator the latin-1 decoding of
the input and emits the latin-1 encoding of the operator's result —
lets arbitrary binary inputs survive the string round trip: with an
operator that returns its argument unchanged, a fresh engine emits
exactly the original input bytes. -/
theorem latin1_roundtrip_identity_mutation :
    (∀ b : ByteStr, latin1Encode (latin1Decode b) = some b) ∧
    (∀ (digest : ByteStr → Md5Digest) (opChoice : Nat → String)
        (data : ByteStr) (ctx : PEnv),
      mutate ["identity"] [⟨none, none, [("identity", 1)]⟩] digest opChoice
          (fun s _ _ _ => s) initEngineState data ctx 1
        = (.ok [(data, opChoice 0)], ⟨[digest data], 1000, 5⟩)) := by
  refine ⟨latin1Encode_decode, ?_⟩
  intro digest opChoice data ctx
  simp [mutate, initEngineState, mutateLoop, selectRule, retryLoop,
    latin1Encode_decode]

theorem mutateLoop_ok_length (rules : List MutRule) (ctx : PEnv)
    (digest : ByteStr → Md5Digest) (opChoice : Nat → String)
    (opFn : PyStr → PEnv → Nat → Nat → PyStr) (data : ByteStr) :
    ∀ fuel k st muts ms st2,
      mutateLoop rules ctx digest opChoice opFn data fuel k st muts = (.ok ms, st2) →
      ms.length ≤ muts.length + fuel := by
  intro fuel
  induction fuel with
  | zero =>
    intro k st muts ms st2 h
    simp only [mutateLoop, Prod.mk.injEq] at h
    obtain ⟨h1, _⟩ := h
    cases h1
    omega
  | succ fuel ih =>
    intro k st muts ms st2 h
    simp only [mutateLoop] at h
    cases hsel : selectRule rules ctx with
    | none => rw [hsel] at h; simp at h
    | some r =>
      rw [hsel] at h
      simp only at h
      cases hrl : retryLoop digest (opFn (latin1Decode data) ctx k) st.max_retries 0
          st.mutation_history with
      | error e => rw [hrl] at h; simp at h
      | ok pr =>
        rw [hrl] at h
        obtain ⟨hist, res⟩ := pr
        simp only at h
        cases res with
        | none =>
          have := ih (k + 1) _ _ _ _ h
          simp at this
          omega
        | some m =>
          have := ih (k + 1) _ _ _ _ h
          simp at this
          omega

theorem retryLoop_all_collide (digest : ByteStr → Md5Digest) (outs : Nat → PyStr) :
    ∀ fuel r hist,
      (∀ j, r ≤ j → j < r + fuel →
        ∃ b, latin1Encode (outs j) = some b ∧ digest b ∈ hist) →
      retryLoop digest outs fuel r hist = .ok (hist, none) := by
  intro fuel
  induction fuel with
  | zero => intro r hist _; rfl
  | succ fuel ih =>
    intro r hist hcol
    obtain ⟨b, henc, hmem⟩ := hcol r (le_refl r) (by omega)
    simp only [retryLoop, henc, hmem, if_pos]
    exact ih (r + 1) hist (fun j hj1 hj2 => hcol j (by omega) (by omega))

/-- C1 (amended): mutate returns at most n pairs; a requested mutation
whose max_retries operator attempts all produce digests already in the
history emits nothing at all — the iteration is skipped, so fewer than
n pairs may come back. -/
theorem mutate_up_to_n_exhausted_retries_emit_nothing :
    (∀ ops rules digest opChoice opFn st (data : ByteStr) (ctx : PEnv) n ms st2,
      mutate ops rules digest opChoice opFn st data ctx n = (.ok ms, st2) →
      ms.length ≤ n) ∧
    (∀ ops rules digest opChoice opFn st (data : ByteStr) (ctx : PEnv) r0,
      ops ≠ [] → rules ≠ [] → selectRule rules ctx = some r0 →
      (∀ r, r < st.max_retries →
        ∃ b, latin1Encode (opFn (latin1Decode data) ctx 0 r) = some b ∧
          digest b ∈ st.mutation_history) →
      (mutate ops rules digest opChoice opFn st data ctx 1).1 = .ok []) := by
  constructor
  · intro ops rules digest opChoice opFn st data ctx n ms st2 h
    unfold mutate at h
    by_cases hop : ops = []
    · rw [if_pos hop] at h; simp at h
    · rw [if_neg hop] at h
      by_cases hru : rules = []
      · rw [if_pos hru] at h; simp at h
      · rw [if_neg hru] at h
        simpa using mutateLoop_ok_length rules ctx digest opChoice opFn data n 0 st [] ms st2 h
  · intro ops rules digest opChoice opFn st data ctx r0 hop hru hsel hcol
    unfold mutate
    rw [if_neg hop, if_neg hru]
    have hrl : retryLoop digest (opFn (latin1Decode data) ctx 0) st.max_retries 0
        st.mutation_history = .ok (st.mutation_history, none) :=
      retryLoop_all_collide digest _ st.max_retries 0 st.mutation_history
        (fun j _ hj2 => hcol j (by omega))
    simp [mutateLoop, hsel, hrl]

/-- Witness for C1: a concrete collision-free run emits at most the
requested two mutations, and a concrete run whose history already holds
the digest of the identity operator's output emits nothing. -/
theorem mutate_up_to_n_exhausted_retries_emit_nothing_witness :
    ((mutate ["idOp"] [ruleW] toyDigest (fun _ => "idOp") (fun s _ _ _ => s)
        initEngineState dataW [] 2).1.toOption.all (fun ms => ms.length ≤ 2)) ∧
    (mutate ["idOp"] [ruleW] toyDigest (fun _ => "idOp") (fun s _ _ _ => s)
        stW dataW [] 1).1 = .ok [] := by
  constructor
  · cases hrun : mutate ["idOp"] [ruleW] toyDigest (fun _ => "idOp") (fun s _ _ _ => s)
        initEngineState dataW [] 2 with
    | mk r st2 =>
      cases r with
      | error e => simp [Except.toOption]
      | ok ms =>
        simp only [Option.all, Except.toOption]
        simpa using mutate_up_to_n_exhausted_retries_emit_nothing.1
          ["idOp"] [ruleW] toyDigest (fun _ => "idOp") (fun s _ _ _ => s)
          initEngineState dataW [] 2 ms st2 hrun
  · exact mutate_up_to_n_exhausted_retries_emit_nothing.2
      ["idOp"] [ruleW] toyDigest (fun _ => "idOp") (fun s _ _ _ => s)
      stW dataW [] ruleW (by decide) (by decide) (by decide)
      (fun r _ => ⟨dataW, latin1Encode_decode dataW, by decide⟩)

/-- Counterexample to C1 as stated: with the identity operator and a
history already containing the digest of its output, all five retries
collide and mutate(data, ctx, 1) returns the empty list — the last
attempt's bytes are NOT emitted. -/
theorem mutate_exhausted_retries_cex :
    (mutate ["idOp"] [ruleW] toyDigest (fun _ => "idOp") (fun s _ _ _ => s)
        stW dataW [] 1).1 = .ok [] := by
  rfl

theorem retryLoop_spec (digest : ByteStr → Md5Digest) (outs : Nat → PyStr) :
    ∀ fuel r hist hist2 res,
      retryLoop digest outs fuel r hist = .ok (hist2, res) →
      (hist2 = hist ∧ res = none) ∨ ∃ m, res = some m ∧ hist2 = digest m :: hist := by
  intro fuel
  induction fuel with
  | zero =>
    intro r hist hist2 res h
    simp only [retryLoop, Except.ok.injEq, Prod.mk.injEq] at h
    exact Or.inl ⟨h.1.symm, h.2.symm⟩
  | succ fuel ih =>
    intro r hist hist2 res h
    simp only [retryLoop] at h
    cases henc : latin1Encode (outs r) with
    | none => rw [henc] at h; simp at h
    | some mutated =>
      rw [henc] at h
      simp only at h
      by_cases hmem : digest mutated ∈ hist
      · rw [if_pos hmem] at h
        exact ih (r + 1) hist hist2 res h
      · rw [if_neg hmem] at h
        simp only [Except.ok.injEq, Prod.mk.injEq] at h
        exact Or.inr ⟨mutated, h.2.symm, h.1.symm⟩


theorem mutateLoop_state_inv (rules : List MutRule) (ctx : PEnv)
    (digest : ByteStr → Md5Digest) (opChoice : Nat → String)
    (opFn : PyStr → PEnv → Nat → Nat → PyStr) (data : ByteStr) :
    ∀ fuel k st muts,
      (mutateLoop rules ctx digest opChoice opFn data fuel k st muts).2.max_mutation_history_size
          = st.max_mutation_history_size ∧
      (st.mutation_history.length ≤ st.max_mutation_history_size →
        (mutateLoop rules ctx digest opChoice opFn data fuel k st muts).2.mutation_history.length
          ≤ st.max_mutation_history_size) ∧
      (∀ d ∈ (mutateLoop rules ctx digest opChoice opFn data fuel k st muts).2.mutation_history,
        d ∈ st.mutation_history ∨ ∃ b, d = digest b) := by
  intro fuel
  induction fuel with
  | zero =>
    intro k st muts
    exact ⟨rfl, fun h => h, fun d hd => Or.inl hd⟩
  | succ fuel ih =>
    intro k st muts
    simp only [mutateLoop]
    cases hsel : selectRule rules ctx with
    | none => exact ⟨rfl, fun h => h, fun d hd => Or.inl hd⟩
    | some r =>
      simp only
      cases hrl : retryLoop digest (opFn (latin1Decode data) ctx k) st.max_retries 0
          st.mutation_history with
      | error e => exact ⟨rfl, fun h => h, fun d hd => Or.inl hd⟩
      | ok pr =>
        obtain ⟨hist, res⟩ := pr
        have hchar := retryLoop_spec digest _ st.max_retries 0 st.mutation_history hist res hrl
        have hgrow : hist.length ≤ st.mutation_history.length + 1 := by
          rcases hchar with ⟨he, _⟩ | ⟨m, _, he⟩ <;> rw [he] <;> simp
        have hmem0 : ∀ d ∈ hist, d ∈ st.mutation_history ∨ ∃ b, d = digest b := by
          intro d hd
          rcases hchar with ⟨he, _⟩ | ⟨m, _, he⟩
          · rw [he] at hd; exact Or.inl hd
          · rw [he] at hd
            rcases List.mem_cons.mp hd with h1 | h1
            · exact Or.inr ⟨m, h1⟩
            · exact Or.inl h1
        clear hchar hrl
        have hbody : ∀ muts2 : List (ByteStr × String),
            (mutateLoop rules ctx digest opChoice opFn data fuel (k + 1)
              { st with mutation_history :=
                  if st.max_mutation_history_size ≤ hist.length then hist.dropLast else hist }
              muts2).2.max_mutation_history_size = st.max_mutation_history_size ∧
            (st.mutation_history.length ≤ st.max_mutation_history_size →
              (mutateLoop rules ctx digest opChoice opFn data fuel (k + 1)
                { st with mutation_history :=
                    if st.max_mutation_history_size ≤ hist.length then hist.dropLast else hist }
                muts2).2.mutation_history.length ≤ st.max_mutation_history_size) ∧
            (∀ d ∈ (mutateLoop rules ctx digest opChoice opFn data fuel (k + 1)
                { st with mutation_history :=
                    if st.max_mutation_history_size ≤ hist.length then hist.dropLast else hist }
                muts2).2.mutation_history,
              d ∈ st.mutation_history ∨ ∃ b, d = digest b) := by
          intro muts2
          obtain ⟨ih1, ih3, ih4⟩ := ih (k + 1)
            { st with mutation_history :=
                if st.max_mutation_history_size ≤ hist.length then hist.dropLast else hist }
            muts2
          refine ⟨ih1, ?_, ?_⟩
          · intro hlen
            refine ih3 ?_
            show (if st.max_mutation_history_size ≤ hist.length then hist.dropLast else hist).length
              ≤ st.max_mutation_history_size
            split
            · rw [List.length_dropLast]; omega
            · omega
          · intro d hd
            rcases ih4 d hd with hmem | him
            · have hd2 : d ∈ hist := by
                revert hmem
                show d ∈ (if st.max_mutation_history_size ≤ hist.length
                    then hist.dropLast else hist) → d ∈ hist
                split
                · exact fun hx => List.dropLast_subset hist hx
                · exact fun hx => hx
              exact hmem0 d hd2
            · exact Or.inr him
        cases res with
        | none => simpa only using hbody muts
        | some m => simpa only using hbody (muts ++ [(m, opChoice k)])

theorem mutate_state_inv (ops : List String) (rules : List MutRule)
    (digest : ByteStr → Md5Digest) (opChoice : Nat → String)
    (opFn : PyStr → PEnv → Nat → Nat → PyStr)
    (st : EngineState) (data : ByteStr) (ctx : PEnv) (n : Nat) :
    (mutate ops rules digest opChoice opFn st data ctx n).2.max_mutation_history_size
        = st.max_mutation_history_size ∧
    (st.mutation_history.length ≤ st.max_mutation_history_size →
      (mutate ops rules digest opChoice opFn st data ctx n).2.mutation_history.length
        ≤ st.max_mutation_history_size) ∧
    (∀ d ∈ (mutate ops rules digest opChoice opFn st data ctx n).2.mutation_history,
      d ∈ st.mutation_history ∨ ∃ b, d = digest b) := by
  unfold mutate
  by_cases hop : ops = []
  · rw [if_pos hop]
    exact ⟨rfl, fun h => h, fun d hd => Or.inl hd⟩
  · rw [if_neg hop]
    by_cases hru : rules = []
    · rw [if_pos hru]
      exact ⟨rfl, fun h => h, fun d hd => Or.inl hd⟩
    · rw [if_neg hru]
      exact mutateLoop_state_inv rules ctx digest opChoice opFn data n 0 st []

/-- C7: after any sequence of mutate calls on a freshly constructed
engine, the mutation history holds at most MAX_HISTORY_SIZE = 1000
entries, and every entry is a fixed-size 16-byte digest in the image of
the digest function — never the input or mutated bytes themselves. -/
theorem history_bounded_entries_are_digests (ops : List String)
    (rules : List MutRule) (digest : ByteStr → Md5Digest)
    (calls : List MutateCall) :
    (runMutateCalls ops rules digest initEngineState calls).mutation_history.length ≤ 1000 ∧
    ∀ d ∈ (runMutateCalls ops rules digest initEngineState calls).mutation_history,
      d.val.length = 16 ∧ ∃ b, d = digest b := by
  suffices haux : ∀ (cs : List MutateCall) (st : EngineState),
      st.max_mutation_history_size = 1000 →
      st.mutation_history.length ≤ 1000 →
      (∀ d ∈ st.mutation_history, ∃ b, d = digest b) →
      (runMutateCalls ops rules digest st cs).mutation_history.length ≤ 1000 ∧
      ∀ d ∈ (runMutateCalls ops rules digest st cs).mutation_history, ∃ b, d = digest b by
    obtain ⟨hlen, hdig⟩ := haux calls initEngineState rfl (by simp [initEngineState])
      (by simp [initEngineState])
    exact ⟨hlen, fun d hd => ⟨d.2, hdig d hd⟩⟩
  intro cs
  induction cs with
  | nil =>
    intro st _ hlen hdig
    exact ⟨hlen, hdig⟩
  | cons c rest ih =>
    intro st hmax hlen hdig
    obtain ⟨i1, i2, i3⟩ := mutate_state_inv ops rules digest c.opChoice c.opFn st c.data c.ctx c.num
    simp only [runMutateCalls]
    refine ih _ (by rw [i1, hmax]) ?_ ?_
    · rw [hmax] at i2
      exact i2 hlen
    · intro d hd
      rcases i3 d hd with hmem | him
      · exact hdig d hmem
      · exact him

theorem selectRule_eq_find (ctx : PEnv) :
    ∀ rules : List MutRule, selectRule rules ctx = rules.find? (ruleMatches ctx) := by
  intro rules
  induction rules with
  | nil => rfl
  | cons r rest ih =>
    simp only [selectRule, List.find?]
    cases hc : r.condition with
    | none => simp [ruleMatches, hc]
    | some c =>
      by_cases he : eval_predicate_expression c ctx
      · simp [ruleMatches, hc, he]
      · simp only [ruleMatches, hc, he]
        simpa [he] using ih

theorem selectRule_skips_nonmatching (ctx : PEnv) (r : MutRule)
    (hr : ruleMatches ctx r = true) :
    ∀ pre rest, (∀ x ∈ pre, ruleMatches ctx x = false) →
      selectRule (pre ++ r :: rest) ctx = some r := by
  intro pre
  induction pre with
  | nil =>
    intro rest _
    show selectRule (r :: rest) ctx = some r
    cases hc : r.condition with
    | none =>
      unfold selectRule
      rw [hc]
    | some c =>
      have hr2 : eval_predicate_expression c ctx = true := by
        unfold ruleMatches at hr
        rw [hc] at hr
        exact hr
      unfold selectRule
      rw [hc]
      exact if_pos hr2
  | cons p ps ih =>
    intro rest hpre
    have hp : ruleMatches ctx p = false := hpre p (by simp)
    have hrec := ih rest (fun x hx => hpre x (by simp [hx]))
    show selectRule (p :: (ps ++ r :: rest)) ctx = some r
    cases hc : p.condition with
    | none =>
      exfalso
      unfold ruleMatches at hp
      rw [hc] at hp
      simp at hp
    | some c =>
      have hp2 : eval_predicate_expression c ctx = false := by
        unfold ruleMatches at hp
        rw [hc] at hp
        exact hp
      unfold selectRule
      rw [hc]
      show (if eval_predicate_expression c ctx = true then some p
          else selectRule (ps ++ r :: rest) ctx) = some r
      simp only [hp2, Bool.false_eq_true, if_false]
      exact hrec

/-- C5: rule selection returns the first rule in declaration order
whose condition is absent or evaluates true over the context; a mutate
call fails with the no-rule-matches error when no rule's condition
holds; and inserting a new rule anywhere after the first matching rule
never changes which rule is selected. -/
theorem rule_first_match :
    (∀ (rules : List MutRule) (ctx : PEnv),
      selectRule rules ctx = rules.find? (ruleMatches ctx)) ∧
    (∀ (ctx : PEnv) (pre : List MutRule) (r : MutRule) (post1 post2 : List MutRule)
        (newRule : MutRule),
      (∀ x ∈ pre, ruleMatches ctx x = false) → ruleMatches ctx r = true →
      selectRule (pre ++ r :: post1 ++ newRule :: post2) ctx
        = selectRule (pre ++ r :: (post1 ++ post2)) ctx) ∧
    (∀ ops rules digest opChoice opFn st (data : ByteStr) (ctx : PEnv) (n : Nat),
      ops ≠ [] → rules ≠ [] → selectRule rules ctx = none →
      (mutate ops rules digest opChoice opFn st data ctx (n + 1)).1
        = .error "no matching rule for mutation context") := by
  refine ⟨fun rules ctx => selectRule_eq_find ctx rules, ?_, ?_⟩
  · intro ctx pre r post1 post2 newRule hpre hr
    have h1 := selectRule_skips_nonmatching ctx r hr pre (post1 ++ newRule :: post2) hpre
    have h2 := selectRule_skips_nonmatching ctx r hr pre (post1 ++ post2) hpre
    calc selectRule (pre ++ r :: post1 ++ newRule :: post2) ctx
        = some r := by simpa using h1
      _ = selectRule (pre ++ r :: (post1 ++ post2)) ctx := h2.symm
  · intro ops rules digest opChoice opFn st data ctx n hop hru hsel
    unfold mutate
    rw [if_neg hop, if_neg hru]
    simp [mutateLoop, hsel]

/-- Witness for C5: with the spec's two-rule scenario — a rule guarded
by "n == 0" followed by an unconditional one — the context n = 1
selects the unconditional rule, inserting a rule after it changes
nothing, and with only the guarded rule present the same context makes
mutate fail with the no-rule-matches error. -/
theorem rule_first_match_witness :
    selectRule [ruleCondW, ruleUncondW] [("n", PScalar.int 1)]
      = [ruleCondW, ruleUncondW].find? (ruleMatches [("n", PScalar.int 1)]) ∧
    selectRule ([ruleCondW] ++ ruleUncondW :: [] ++ ruleCondW :: []) [("n", PScalar.int 1)]
      = selectRule ([ruleCondW] ++ ruleUncondW :: ([] ++ [])) [("n", PScalar.int 1)] ∧
    (mutate ["A"] [ruleCondW] toyDigest (fun _ => "A") (fun s _ _ _ => s)
        initEngineState dataW [("n", PScalar.int 1)] 1).1
      = .error "no matching rule for mutation context" := by
  refine ⟨rule_first_match.1 [ruleCondW, ruleUncondW] [("n", PScalar.int 1)],
    rule_first_match.2.1 [("n", PScalar.int 1)] [ruleCondW] ruleUncondW [] [] ruleCondW
      (by decide) (by decide),
    rule_first_match.2.2 ["A"] [ruleCondW] toyDigest (fun _ => "A") (fun s _ _ _ => s)
      initEngineState dataW [("n", PScalar.int 1)] 0
      (by decide) (by decide) (by decide)⟩

theorem validateOpEntry_ok_iff (ops : List String) (e : JVal) :
    validateOpEntry ops e = .ok () ↔ entryOk ops e = true := by
  cases e with
  | jnull => simp [validateOpEntry, entryOk]
  | jbool b => simp [validateOpEntry, entryOk]
  | jnum q => simp [validateOpEntry, entryOk]
  | jstr s => simp [validateOpEntry, entryOk]
  | jobj l => simp [validateOpEntry, entryOk]
  | jarr l =>
    cases l with
    | nil => simp [validateOpEntry, entryOk]
    | cons a l1 =>
      cases l1 with
      | nil => simp [validateOpEntry, entryOk]
      | cons w l2 =>
        cases l2 with
        | cons c l3 => simp [validateOpEntry, entryOk]
        | nil =>
          cases a with
          | jnull => simp [validateOpEntry, entryOk]
          | jbool b => simp [validateOpEntry, entryOk]
          | jnum q => simp [validateOpEntry, entryOk]
          | jarr l4 => simp [validateOpEntry, entryOk]
          | jobj l4 => simp [validateOpEntry, entryOk]
          | jstr s =>
            by_cases hs : s ∈ ops
            · cases w with
              | jnull => simp [validateOpEntry, entryOk, hs]
              | jbool b =>
                cases b <;> simp [validateOpEntry, entryOk, hs]
              | jnum q =>
                by_cases hq : 0 < q <;> simp [validateOpEntry, entryOk, hs, hq]
              | jstr s2 => simp [validateOpEntry, entryOk, hs]
              | jarr l4 => simp [validateOpEntry, entryOk, hs]
              | jobj l4 => simp [validateOpEntry, entryOk, hs]
            · cases w <;> simp [validateOpEntry, entryOk, hs]

theorem validateOpEntries_ok_iff (ops : List String) :
    ∀ entries : List JVal,
      validateOpEntries ops entries = .ok () ↔ entries.all (entryOk ops) = true := by
  intro entries
  induction entries with
  | nil => simp [validateOpEntries]
  | cons e rest ih =>
    simp only [validateOpEntries, List.all_cons, Bool.and_eq_true]
    cases hv : validateOpEntry ops e with
    | ok u =>
      obtain rfl : u = () := rfl
      have he : entryOk ops e = true := (validateOpEntry_ok_iff ops e).mp hv
      simp [he, ih]
    | error m =>
      have he : entryOk ops e ≠ true := by
        intro hcon
        have := (validateOpEntry_ok_iff ops e).mpr hcon
        rw [hv] at this
        exact Except.noConfusion this
      simp [he]

theorem validateRule_ok_iff (ops : List String) (rule : JRule) :
    validateRule ops rule = .ok () ↔ ruleOk ops rule = true := by
  unfold validateRule ruleOk
  cases hf : jruleLookup rule "operators" with
  | none => simp
  | some v =>
    cases v with
    | jnull => simp
    | jbool b => simp
    | jnum q => simp
    | jstr s => simp
    | jobj l => simp
    | jarr entries => exact validateOpEntries_ok_iff ops entries

/-- C4 (amended): strategy loading fails before any mutation exactly
when some rule's operators field is missing, is not a list, has an
entry that is not a [name, weight] pair, references an operator that
was not loaded, or carries a weight that is not a positive number —
but a rule whose operators list is EMPTY passes validation (the
per-entry loop is vacuous), so an empty list is not rejected at load
time. -/
theorem strategy_validation_ok_iff :
    ∀ (ops : List String) (rules : List JRule),
      validateStrategy ops rules = .ok () ↔ rules.all (ruleOk ops) = true := by
  intro ops rules
  induction rules with
  | nil => simp [validateStrategy]
  | cons r rest ih =>
    simp only [validateStrategy, List.all_cons, Bool.and_eq_true]
    cases hv : validateRule ops r with
    | ok u =>
      obtain rfl : u = () := rfl
      have hr : ruleOk ops r = true := (validateRule_ok_iff ops r).mp hv
      simp [hr, ih]
    | error m =>
      have hr : ruleOk ops r ≠ true := by
        intro hcon
        have := (validateRule_ok_iff ops r).mpr hcon
        rw [hv] at this
        exact Except.noConfusion this
      simp [hr]

/-- Witness for C4: a concrete strategy with one well-formed weighted
entry validates, via the characterization. -/
theorem strategy_validation_ok_iff_witness :
    validateStrategy ["flip"] [[("operators", JVal.jarr [JVal.jarr [JVal.jstr "flip", JVal.jnum 2]])]]
      = .ok () :=
  (strategy_validation_ok_iff ["flip"]
    [[("operators", JVal.jarr [JVal.jarr [JVal.jstr "flip", JVal.jnum 2]])]]).mpr (by decide)

/-- Counterexample to C4 as stated: a rule whose operators list is
empty passes _load_strategy validation — the load does NOT fail, so an
empty operators list is not rejected at load time. -/
theorem empty_operators_list_loads_cex :
    validateStrategy ["op"] [[("operators", JVal.jarr [])]] = .ok () := by
  rfl

theorem foldl_append_of_step {α β : Type} (f : List β → α → List β) (g : α → List β)
    (hf : ∀ acc a, f acc a = acc ++ g a) :
    ∀ (l : List α) (acc : List β), l.foldl f acc = acc ++ (l.map g).flatten := by
  intro l
  induction l with
  | nil => intro acc; simp
  | cons a rest ih =>
    intro acc
    rw [List.foldl_cons, hf, ih]
    simp

/-- C2 (amended): canonicalization appends, for each spec item in
declaration order whose display key is present in the dict, a label
followed by the value, and silently skips absent keys — but the labels
are "<name> (value)", "<name> (sum)", "<name> (set)", "<expr> (count)"
for counter, and the BARE expression string for predicate items (no
" (predicate)" suffix). -/
theorem state_tuple_eq_labelled_flattening :
    ∀ (spec : List SpecItem) (d : StateDict),
      dictToStateTuple spec d = stateTupleSpec spec d := by
  intro spec d
  unfold dictToStateTuple stateTupleSpec
  have hf : ∀ (acc : List PValue) (item : SpecItem),
      (fun (acc : List PValue) (item : SpecItem) =>
        match item with
        | .value n =>
            if dictContains d n then
              acc ++ [.str (n ++ " (value)"), (dictLookup d n).getD (.int 0)]
            else acc
        | .sum n =>
            if dictContains d n then
              acc ++ [.str (n ++ " (sum)"), (dictLookup d n).getD (.int 0)]
            else acc
        | .predicate s _ =>
            if dictContains d s then
              acc ++ [.str s, (dictLookup d s).getD (.int 0)]
            else acc
        | .counter s _ =>
            if dictContains d s then
              acc ++ [.str (s ++ " (count)"), (dictLookup d s).getD (.int 0)]
            else acc
        | .set n =>
            if dictContains d n then
              acc ++ [.str (n ++ " (set)"), (dictLookup d n).getD (.int 0)]
            else acc) acc item
      = acc ++ (fun item =>
          if dictContains d (itemKey item) then
            [PValue.str (itemLabel item), (dictLookup d (itemKey item)).getD (.int 0)]
          else []) item := by
    intro acc item
    cases item <;> simp only [itemKey, itemLabel] <;> split <;> simp
  rw [foldl_append_of_step _ _ hf spec []]
  simp

/-- Counterexample to C2 as stated: for a predicate spec item the label
written into the state tuple is the bare expression string, not
"<key> (predicate)". -/
theorem predicate_label_bare_cex :
    dictToStateTuple [predItemW] [("x > 3", PValue.int 1)]
      = [PValue.str "x > 3", PValue.int 1] ∧
    dictToStateTuple [predItemW] [("x > 3", PValue.int 1)]
      ≠ [PValue.str "x > 3 (predicate)", PValue.int 1] := by
  constructor
  · rfl
  · decide

theorem any_key_map_insert (d : StateDict) (k : String) (v : PValue) (n : String) :
    (d.map (fun p => if p.1 = k then (k, v) else p)).any (fun p => p.1 = n)
      = d.any (fun p => p.1 = n) := by
  induction d with
  | nil => rfl
  | cons q rest ih =>
    simp only [List.map_cons, List.any_cons, ih]
    by_cases hq : q.1 = k
    · simp [hq]
    · simp [hq]

theorem dictContains_dictInsert (d : StateDict) (k : String) (v : PValue) (n : String) :
    dictContains (dictInsert d k v) n = (dictContains d n || decide (n = k)) := by
  unfold dictInsert
  by_cases hk : (d.any (fun p => p.1 = k)) = true
  · rw [if_pos hk]
    unfold dictContains
    rw [any_key_map_insert]
    by_cases hnk : n = k
    · subst hnk
      simp [hk]
    · simp [hnk]
  · rw [if_neg hk]
    unfold dictContains
    rw [List.any_append]
    simp [eq_comm]

theorem envContains_false_lookup_none (env : PEnv) (x : String)
    (h : envContains env x = false) : envLookup env x = none := by
  unfold envContains at h
  unfold envLookup
  have hf : env.find? (fun p => p.1 = x) = none := by
    rw [List.find?_eq_none]
    intro a ha
    have := (List.any_eq_false.mp h) a ha
    simpa using this
  rw [hf]
  rfl

theorem samplesGet_absent (samples : Samples) (n : String)
    (h : samplesContains samples n = false) : samplesGet samples n = [] := by
  unfold samplesContains at h
  unfold samplesGet
  have hf : samples.find? (fun p => p.1 = n) = none := by
    rw [List.find?_eq_none]
    intro a ha
    have := (List.any_eq_false.mp h) a ha
    simpa using this
  rw [hf]
  rfl

theorem dictContains_updItem_mono (samples : Samples) (latest : PEnv)
    (d : StateDict) (item : SpecItem) (x : String)
    (h : dictContains d x = true) :
    dictContains (updItem samples latest d item) x = true := by
  cases item with
  | value n =>
    cases hl : envLookup latest n with
    | none => simp only [updItem, hl]; exact h
    | some v => simp [updItem, hl, dictContains_dictInsert, h]
  | sum n => simp [updItem, dictContains_dictInsert, h]
  | predicate s ast => simp [updItem, dictContains_dictInsert, h]
  | counter s ast => simp [updItem, dictContains_dictInsert, h]
  | set n => simp [updItem, dictContains_dictInsert, h]

theorem dictContains_updItem_preserve_false (samples : Samples) (latest : PEnv)
    (d : StateDict) (x : String) (item : SpecItem)
    (hkey : itemKey item = x → item = SpecItem.value x ∧ envContains latest x = false)
    (h : dictContains d x = false) :
    dictContains (updItem samples latest d item) x = false := by
  cases item with
  | value n =>
    by_cases hnx : n = x
    · subst hnx
      obtain ⟨_, habs⟩ := hkey rfl
      have hnone : envLookup latest n = none := envContains_false_lookup_none _ _ habs
      simpa [updItem, hnone] using h
    · cases hl : envLookup latest n with
      | none => simp only [updItem, hl]; exact h
      | some v =>
        simp only [updItem, hl, dictContains_dictInsert, h, decide_eq_false (Ne.symm hnx)]
        rfl
  | sum n =>
    have hnx : ¬ (n = x) := fun hc => SpecItem.noConfusion ((hkey (by simpa [itemKey] using hc)).1)
    simp only [updItem, dictContains_dictInsert, h, decide_eq_false (Ne.symm hnx)]
    rfl
  | predicate s ast =>
    have hnx : ¬ (s = x) := fun hc => SpecItem.noConfusion ((hkey (by simpa [itemKey] using hc)).1)
    simp only [updItem, dictContains_dictInsert, h, decide_eq_false (Ne.symm hnx)]
    rfl
  | counter s ast =>
    have hnx : ¬ (s = x) := fun hc => SpecItem.noConfusion ((hkey (by simpa [itemKey] using hc)).1)
    simp only [updItem, dictContains_dictInsert, h, decide_eq_false (Ne.symm hnx)]
    rfl
  | set n =>
    have hnx : ¬ (n = x) := fun hc => SpecItem.noConfusion ((hkey (by simpa [itemKey] using hc)).1)
    simp only [updItem, dictContains_dictInsert, h, decide_eq_false (Ne.symm hnx)]
    rfl

theorem dictContains_foldl_mono (samples : Samples) (latest : PEnv) (x : String) :
    ∀ (spec : List SpecItem) (d : StateDict), dictContains d x = true →
      dictContains (spec.foldl (updItem samples latest) d) x = true := by
  intro spec
  induction spec with
  | nil => intro d h; exact h
  | cons item rest ih =>
    intro d h
    rw [List.foldl_cons]
    exact ih _ (dictContains_updItem_mono samples latest d item x h)

/-- C3 (amended): a value spec item whose name is absent from the
latest-values map contributes nothing (when every spec item carrying
that display key is such a value item, the key is absent from the
output dict) — but a sum spec item ALWAYS inserts its key, mapping it
to 0 when its name is absent from the samples map. -/
theorem value_omitted_sum_defaults_zero :
    (∀ (spec : List SpecItem) (samples : Samples) (latest : PEnv) (n : String),
      envContains latest n = false →
      (∀ item ∈ spec, itemKey item = n → item = SpecItem.value n) →
      dictContains (computeStateDict spec samples latest) n = false) ∧
    (∀ (spec : List SpecItem) (samples : Samples) (latest : PEnv) (n : String),
      SpecItem.sum n ∈ spec →
      dictContains (computeStateDict spec samples latest) n = true) ∧
    (∀ (samples : Samples) (latest : PEnv) (d : StateDict) (n : String),
      samplesContains samples n = false →
      updItem samples latest d (SpecItem.sum n) = dictInsert d n (PValue.int 0)) := by
  refine ⟨?_, ?_, ?_⟩
  · intro spec samples latest n hlat hspec
    unfold computeStateDict
    have haux : ∀ (l : List SpecItem), (∀ item ∈ l, itemKey item = n → item = SpecItem.value n) →
        ∀ d, dictContains d n = false →
          dictContains (l.foldl (updItem samples latest) d) n = false := by
      intro l
      induction l with
      | nil => intro _ d h; exact h
      | cons item rest ih =>
        intro hl d h
        rw [List.foldl_cons]
        refine ih (fun x hx hk => hl x (by simp [hx]) hk) _ ?_
        exact dictContains_updItem_preserve_false samples latest d n item
          (fun hk => ⟨hl item (by simp) hk, hlat⟩) h
    exact haux spec hspec [] rfl
  · intro spec samples latest n hmem
    unfold computeStateDict
    have haux : ∀ (l : List SpecItem) (d : StateDict), SpecItem.sum n ∈ l →
        dictContains (l.foldl (updItem samples latest) d) n = true := by
      intro l
      induction l with
      | nil => intro d h; simp at h
      | cons item rest ih =>
        intro d hmem2
        rw [List.foldl_cons]
        rcases List.mem_cons.mp hmem2 with heq | h2
        · have hins : dictContains (updItem samples latest d item) n = true := by
            rw [← heq]
            simp [updItem, dictContains_dictInsert]
          exact dictContains_foldl_mono samples latest n rest _ hins
        · exact ih _ h2
    exact haux spec [] hmem
  · intro samples latest d n h
    simp only [updItem]
    rw [samplesGet_absent samples n h]
    rfl

/-- Witness for C3: on samples and latest both empty, the spec
[value "x", sum "y"] projects to a dict without "x" and with "y",
and the sum item inserts ("y", 0). -/
theorem value_omitted_sum_defaults_zero_witness :
    dictContains (computeStateDict [SpecItem.value "x", SpecItem.sum "y"] [] []) "x" = false ∧
    dictContains (computeStateDict [SpecItem.value "x", SpecItem.sum "y"] [] []) "y" = true ∧
    updItem [] [] [] (SpecItem.sum "y") = dictInsert [] "y" (PValue.int 0) :=
  ⟨value_omitted_sum_defaults_zero.1 [SpecItem.value "x", SpecItem.sum "y"] [] [] "x"
      (by decide) (by decide),
    value_omitted_sum_defaults_zero.2.1 [SpecItem.value "x", SpecItem.sum "y"] [] [] "y"
      (by decide),
    value_omitted_sum_defaults_zero.2.2 [] [] [] "y" (by decide)⟩

/-- Counterexample to C3 as stated: a sum spec item whose name is
absent from the samples and latest maps still puts its key into the
output dict, mapped to the default 0. -/
theorem sum_key_present_with_zero_cex :
    dictContains (computeStateDict [SpecItem.sum "x"] [] []) "x" = true ∧
    dictLookup (computeStateDict [SpecItem.sum "x"] [] []) "x" = some (PValue.int 0) := by
  exact ⟨rfl, rfl⟩

theorem foldl_count_filter (p : Nat → Bool) :
    ∀ (l : List Nat) (c : Nat),
      l.foldl (fun c i => if p i then c + 1 else c) c = c + (l.filter p).length := by
  intro l
  induction l with
  | nil => intro c; simp
  | cons a rest ih =>
    intro c
    by_cases ha : p a = true
    · simp only [List.foldl_cons, List.filter_cons, ha, if_true, ih, List.length_cons]
      omega
    · simp only [List.foldl_cons, List.filter_cons, ha, if_false, ih]
      simp

theorem stepEnv_go (i : Nat) :
    ∀ (samples : Samples) (acc : PEnv),
      (∀ q ∈ samples, envContains acc q.1 = false) →
      (samples.map Prod.fst).Nodup →
      samples.foldl
        (fun env p => if i < p.2.length then envInsert env p.1 (p.2.getD i (.int 0)) else env)
        acc
      = acc ++ samples.filterMap (fun p => (p.2[i]?).map (fun v => (p.1, v))) := by
  intro samples
  induction samples with
  | nil =>
    intro acc _ _
    simp
  | cons p rest ih =>
    intro acc hdisj hnodup
    have hnd1 : p.1 ∉ rest.map Prod.fst := by
      simp only [List.map_cons, List.nodup_cons] at hnodup
      exact hnodup.1
    have hnd2 : (rest.map Prod.fst).Nodup := by
      simp only [List.map_cons, List.nodup_cons] at hnodup
      exact hnodup.2
    rw [List.foldl_cons, List.filterMap_cons]
    by_cases hi : i < p.2.length
    · rw [if_pos hi]
      have hacc : envContains acc p.1 = false := hdisj p (by simp)
      have hins : envInsert acc p.1 (p.2.getD i (.int 0))
          = acc ++ [(p.1, p.2.getD i (.int 0))] := by
        unfold envInsert
        unfold envContains at hacc
        rw [if_neg (by simp [hacc])]
      rw [hins]
      have hget : p.2[i]? = some (p.2.getD i (.int 0)) := by
        rw [List.getD_eq_getElem _ _ hi, List.getElem?_eq_getElem hi]
      have hdisj2 : ∀ q ∈ rest, envContains (acc ++ [(p.1, p.2.getD i (.int 0))]) q.1 = false := by
        intro q hq
        unfold envContains
        rw [List.any_append]
        have h1 : acc.any (fun r => r.1 = q.1) = false := by
          have := hdisj q (by simp [hq])
          unfold envContains at this
          exact this
        have h2 : q.1 ≠ p.1 := by
          intro hc
          exact hnd1 (hc ▸ List.mem_map_of_mem Prod.fst hq)
        simp [h1, h2, Ne.symm h2]
      have hrec := ih (acc ++ [(p.1, p.2.getD i (.int 0))]) hdisj2 hnd2
      rw [hrec, hget]
      simp
    · rw [if_neg hi]
      have hget : p.2[i]? = none := by
        rw [List.getElem?_eq_none]
        omega
      rw [hget]
      have hrec := ih acc (fun q hq => hdisj q (by simp [hq])) hnd2
      rw [hrec]
      simp

theorem stepEnv_eq_spec (samples : Samples) (i : Nat)
    (hnodup : (samples.map Prod.fst).Nodup) :
    stepEnv samples i = stepEnvSpec samples i := by
  unfold stepEnv stepEnvSpec
  simpa using stepEnv_go i samples [] (fun q _ => rfl) hnodup

theorem counterCount_eq_spec (samples : Samples) (ast : PExpr)
    (hnodup : (samples.map Prod.fst).Nodup) :
    counterCount samples ast = counterSpecCount samples ast := by
  unfold counterCount counterSpecCount
  rw [foldl_count_filter]
  simp only [Nat.zero_add]
  congr 1
  apply List.filter_congr
  intro i _
  rw [stepEnv_eq_spec samples i hnodup]

/-- C8: for a counter spec item, the computed value is the number of
step indices i below the maximum sample-list length at which the
expression evaluates true over the per-step environment, and that
environment contains exactly the (name, samples[name][i]) pairs of the
names whose sample list has more than i elements. -/
theorem counter_counts_true_steps :
    ∀ (samples : Samples) (latest : PEnv) (d : StateDict) (s : String) (ast : PExpr),
      (samples.map Prod.fst).Nodup →
      (∀ i, stepEnv samples i = stepEnvSpec samples i) ∧
      updItem samples latest d (SpecItem.counter s ast)
        = dictInsert d s (.int (counterSpecCount samples ast)) := by
  intro samples latest d s ast hnd
  refine ⟨fun i => stepEnv_eq_spec samples i hnd, ?_⟩
  simp only [updItem]
  rw [counterCount_eq_spec samples ast hnd]

/-- Witness for C8: the spec's counter scenario — samples a = [1,0,1],
b = [0,0,1] and expression "a and b" — counts exactly one true step. -/
theorem counter_counts_true_steps_witness :
    updItem samplesW [] [] (SpecItem.counter "a and b" astW)
      = [("a and b", PValue.int 1)] := by
  have h := (counter_counts_true_steps samplesW [] [] "a and b" astW (by decide)).2
  rw [h]
  rfl

theorem foldl_digits_eq_ofDigits :
    ∀ (t : ByteStr) (acc : Nat),
      t.foldl (fun a c => a * 10 + (c.val - 48)) acc
        = acc * 10 ^ t.length + Nat.ofDigits 10 ((t.map (fun c => c.val - 48)).reverse) := by
  intro t
  induction t with
  | nil => intro acc; simp [Nat.ofDigits]
  | cons c rest ih =>
    intro acc
    rw [List.foldl_cons, ih]
    simp only [List.map_cons, List.reverse_cons, List.length_cons]
    rw [Nat.ofDigits_append]
    simp only [Nat.ofDigits, List.length_reverse, List.length_map]
    push_cast
    ring

/-- C9 (amended): a bool token that is a non-empty string of ASCII
digits is accepted and coerced to its full decimal value (so "0" and
"1" work, but so does "42"); a non-empty digit string containing a
latin-1 superscript digit is the only kind of token that is dropped
(int() raises); every other token — "false", "no", "banana", "" alike —
is accepted, coerced to 1 when its lowercase form is "true", "yes" or
"1" and to 0 otherwise. -/
theorem bool_token_coercion_eq_spec :
    ∀ t : ByteStr, coerceBoolToken t = coerceBoolSpec t := by
  intro t
  by_cases hpyall : t ≠ [] ∧ ∀ c ∈ t, isPyDigitChL1 c = true
  · have hdig : pyStrIsDigit t = true := by
      unfold pyStrIsDigit
      rw [Bool.and_eq_true, List.all_eq_true]
      exact ⟨by simpa using hpyall.1, hpyall.2⟩
    by_cases hascii : t ≠ [] ∧ ∀ c ∈ t, isAsciiDigitCh c = true
    · unfold coerceBoolToken coerceBoolSpec pyIntParse
      rw [hdig, if_pos rfl, if_pos hascii, if_pos hascii]
      rw [foldl_digits_eq_ofDigits t 0]
      simp
    · unfold coerceBoolToken coerceBoolSpec pyIntParse
      rw [hdig, if_pos rfl, if_neg hascii, if_neg hascii, if_pos hpyall]
  · have hdig : pyStrIsDigit t = false := by
      cases h : pyStrIsDigit t
      · rfl
      · exfalso
        unfold pyStrIsDigit at h
        rw [Bool.and_eq_true, List.all_eq_true] at h
        exact hpyall ⟨by simpa using h.1, h.2⟩
    have hascii_f : ¬(t ≠ [] ∧ ∀ c ∈ t, isAsciiDigitCh c = true) := by
      intro hc
      apply hpyall
      refine ⟨hc.1, fun c hcm => ?_⟩
      have := hc.2 c hcm
      unfold isAsciiDigitCh at this
      unfold isPyDigitChL1
      simp only [decide_eq_true_eq] at this ⊢
      exact Or.inl this
    unfold coerceBoolToken coerceBoolSpec
    rw [hdig, if_neg (by simp), if_neg hascii_f, if_neg hpyall]

set_option maxRecDepth 10000 in
/-- Counterexample to C9 as stated: the token "banana" is not one of
0/1, true/false, yes/no, yet it is accepted and recorded as 0 rather
than dropped; and the all-digit token "7" is accepted as 7, not
rejected. -/
theorem bool_token_not_dropped_cex :
    coerceBoolToken (toL1 "banana") = some 0 ∧
    coerceBoolToken (toL1 "7") = some 7 ∧
    recordBoolToken [] (toL1 "banana") = [0] := by
  refine ⟨by decide, by decide, ?_⟩
  unfold recordBoolToken
  rw [show coerceBoolToken (toL1 "banana") = some 0 from by decide]
  rfl

/-- Witness for C7: one concrete mutate call with the identity operator
inserts one digest; the bound and the digest-image property hold for
the resulting history, whose single entry is 16 bytes long. -/
theorem history_bounded_entries_are_digests_witness :
    (runMutateCalls ["idOp"] [ruleW] toyDigest initEngineState
        [⟨dataW, [], 1, fun _ => "idOp", fun s _ _ _ => s⟩]).mutation_history.length ≤ 1000 ∧
    ((toyDigest dataW).val.length = 16 ∧ ∃ b, toyDigest dataW = toyDigest b) := by
  refine ⟨(history_bounded_entries_are_digests ["idOp"] [ruleW] toyDigest
      [⟨dataW, [], 1, fun _ => "idOp", fun s _ _ _ => s⟩]).1, ?_⟩
  exact (history_bounded_entries_are_digests ["idOp"] [ruleW] toyDigest
      [⟨dataW, [], 1, fun _ => "idOp", fun s _ _ _ => s⟩]).2 (toyDigest dataW) (by decide)
